import Mathlib

/-!
Shallow embedding of the pattern-matching and severity-scoring engine of
`pylabel/automated_labeler.py` (the `AutomatedLabeler` class).

Strings are Lean `String`s; Python sets become `Finset String`; the numeric
severity accumulator (which mixes integer and half-point deltas) is `ℚ`.
The Aho-Corasick automaton is modelled by enumerating, for every start
position of the text, the literal lexicon entries whose phrase occurs there
(`autoEvents`): this yields exactly the stream of occurrences the automaton's
`iter` reports, and the processing of that stream mirrors the source loop.
Compiled regular expressions are abstracted as their observable behaviour,
a `search : String → Bool` function tagged with the source `pattern` string;
regex compilation is an abstract `compile : String → Option (String → Bool)`
(`none` models `re.error`).  The Perspective API call is modelled by its
outcome: an `Except` value that is either a failure or a JSON-like
association list of attribute scores.
-/

namespace Labeler

/-- Lower-case a string character by character (model of Python `str.lower`). -/
def lowerStr (s : String) : String := ⟨s.data.map Char.toLower⟩

/-- Upper-case a string character by character (model of Python `str.upper`). -/
def upperStr (s : String) : String := ⟨s.data.map Char.toUpper⟩

/-- Trim whitespace from both ends (model of Python `str.strip`). -/
def stripStr (s : String) : String :=
  ⟨((s.data.dropWhile Char.isWhitespace).reverse.dropWhile Char.isWhitespace).reverse⟩

/-- `leadsWith p t` is true when `p` is an initial segment of `t`. -/
def leadsWith : List Char → List Char → Bool
  | [], _ => true
  | _ :: _, [] => false
  | a :: as, b :: bs => a == b && leadsWith as bs

/-- Substring occurrence test: model of Python `p in t` on strings. -/
def occursIn (p t : String) : Bool :=
  (List.range (t.data.length + 1)).any (fun i => leadsWith p.data (t.data.drop i))

/-- A raw CSV cell value as pandas hands it to the loader: either a Python
bool or a string. -/
inductive PyVal where
  | bool (b : Bool)
  | str (s : String)
deriving DecidableEq

/-- Model of Python `str(v)` on a `PyVal`. -/
def pyStrOf : PyVal → String
  | .bool true => "True"
  | .bool false => "False"
  | .str s => s

/-- Model of Python truthiness of a `PyVal` (a string is truthy iff non-empty). -/
def pyTruthy : PyVal → Bool
  | .bool b => b
  | .str s => s ≠ ""

/-- One CSV row of `lexicon.csv` / `meta-label.csv`:
`category,phrase_or_pattern,is_regex,notes` (the `notes` column is unread). -/
structure Row where
  category : String
  phrase_or_pattern : String
  is_regex : PyVal
deriving DecidableEq

/-- The `is_regex` test of `load_lexicon`:
`str(row["is_regex"]).strip().upper() == "TRUE"`. -/
def lexRegexFlag (v : PyVal) : Bool := upperStr (stripStr (pyStrOf v)) == "TRUE"

/-- The `is_regex` test of `load_review_keywords`:
`row["is_regex"] or str(row["is_regex"]).upper() == "TRUE"`. -/
def reviewRegexFlag (v : PyVal) : Bool := pyTruthy v || (upperStr (pyStrOf v) == "TRUE")

/-- Python-dict insertion on an association list: overwrite the value in
place if the key exists, otherwise append (insertion order preserved). -/
def dictInsert (k v : String) : List (String × String) → List (String × String)
  | [] => [(k, v)]
  | e :: rest => if e.1 = k then (k, v) :: rest else e :: dictInsert k v rest

/-- A compiled regex entry of `regex_patterns`: the source `pattern` string
(Python `regex.pattern`), its `category`, and the compiled matcher abstracted
as its `search` behaviour on a text. -/
structure RegexEntry where
  pattern : String
  category : String
  search : String → Bool

/-- Result of `load_lexicon`: the literal dict, the regex list, and the
phrases of the rows skipped with an `[WARN] Invalid regex` diagnostic. -/
structure LexiconLoad where
  literal_map : List (String × String)
  regex_patterns : List RegexEntry
  warnings : List String

/-- One iteration of the row loop of `load_lexicon`. -/
def lexStep (compile : String → Option (String → Bool)) (acc : LexiconLoad) (row : Row) :
    LexiconLoad :=
  let category := lowerStr row.category
  let phrase := row.phrase_or_pattern
  if lexRegexFlag row.is_regex then
    match compile phrase with
    | some f => { acc with regex_patterns := acc.regex_patterns ++ [⟨phrase, category, f⟩] }
    | none => { acc with warnings := acc.warnings ++ [phrase] }
  else
    { acc with literal_map := dictInsert (lowerStr phrase) category acc.literal_map }

/-- `AutomatedLabeler.load_lexicon`, parametrised by the abstract regex
compiler. -/
def load_lexicon (compile : String → Option (String → Bool)) (rows : List Row) : LexiconLoad :=
  rows.foldl (lexStep compile) ⟨[], [], []⟩

/-- Result of `load_review_keywords`: literal list, regex list, and skipped
phrases (the `[WARN] Invalid review regex` diagnostics). -/
structure ReviewLoad where
  literal : List String
  regex : List (String → Bool)
  warnings : List String

/-- One iteration of the row loop of `load_review_keywords`. -/
def reviewStep (compile : String → Option (String → Bool)) (acc : ReviewLoad) (row : Row) :
    ReviewLoad :=
  let phrase := row.phrase_or_pattern
  if reviewRegexFlag row.is_regex then
    match compile phrase with
    | some f => { acc with regex := acc.regex ++ [f] }
    | none => { acc with warnings := acc.warnings ++ [phrase] }
  else
    { acc with literal := acc.literal ++ [lowerStr phrase] }

/-- `AutomatedLabeler.load_review_keywords`, parametrised by the abstract
regex compiler. -/
def load_review_keywords (compile : String → Option (String → Bool)) (rows : List Row) :
    ReviewLoad :=
  rows.foldl (reviewStep compile) ⟨[], [], []⟩

/-- The module-level `label_names` set: the valid labels allowed to be
returned. -/
def label_names : Finset String :=
  {"sexual violence", "emotional coercion", "reputational coercion", "self harm",
   "trauma discussion", "fictional depiction", "traumatic news"}

/-- The module-level `CRITICAL_LABELS` set: labels that increase severity
more heavily. -/
def CRITICAL_LABELS : Finset String := {"sexual violence", "self harm"}

/-- Per-match severity increment: `2 if category in CRITICAL_LABELS else 1`. -/
def weight (category : String) : ℚ := if category ∈ CRITICAL_LABELS then 2 else 1

/-- The state of an `AutomatedLabeler` after `__init__`: the literal dict,
the compiled regex list, and the two review keyword lists. -/
structure AutomatedLabeler where
  literal_lexicon : List (String × String)
  regex_patterns : List RegexEntry
  review_literals : List String
  review_regexes : List (String → Bool)

/-- `AutomatedLabeler.__init__`: load the unified lexicon and the review
keyword file (the automaton is built from `literal_lexicon` and is modelled
by scanning with it directly). -/
def AutomatedLabeler.init (compile : String → Option (String → Bool))
    (lexRows reviewRows : List Row) : AutomatedLabeler :=
  let lex := load_lexicon compile lexRows
  let rev := load_review_keywords compile reviewRows
  ⟨lex.literal_map, lex.regex_patterns, rev.literal, rev.regex⟩

/-- The mutable call-local state of `moderate_post`: `labels`,
`matches_found` and `severity_score`. -/
structure ModState where
  labels : Finset String
  matches_found : Finset String
  severity_score : ℚ
deriving DecidableEq

/-- Processing of one automaton occurrence `(phrase, category)` in the
literal loop of `moderate_post`. -/
def literalStep (s : ModState) (ev : String × String) : ModState :=
  if ev.2 ∈ label_names ∧ ev.1 ∉ s.matches_found then
    ⟨insert ev.2 s.labels, insert ev.1 s.matches_found, s.severity_score + weight ev.2⟩
  else s

/-- The occurrence stream `phrase_automaton.iter(content)`: for every start
position of `content`, the lexicon entries whose phrase occurs there. -/
def autoEvents (litMap : List (String × String)) (content : String) :
    List (String × String) :=
  (List.range (content.data.length + 1)).flatMap
    (fun i => litMap.filter (fun e => leadsWith e.1.data (content.data.drop i)))

/-- The literal-phrase loop of `moderate_post` (Aho-Corasick scan). -/
def literalScan (litMap : List (String × String)) (content : String) : ModState :=
  (autoEvents litMap content).foldl literalStep ⟨∅, ∅, 0⟩

/-- One iteration of the regex loop of `moderate_post`. -/
def regexStep (content : String) (s : ModState) (r : RegexEntry) : ModState :=
  if r.search content ∧ r.pattern ∉ s.matches_found then
    if r.category ∈ label_names then
      ⟨insert r.category s.labels, insert r.pattern s.matches_found,
        s.severity_score + weight r.category⟩
    else s
  else s

/-- The regex loop of `moderate_post`. -/
def regexScan (rs : List RegexEntry) (content : String) (st : ModState) : ModState :=
  rs.foldl (regexStep content) st

/-- The review-literal loop with `break`: true as soon as one review word is
a substring of the content. -/
def firstLiteralHit : List String → String → Bool
  | [], _ => false
  | w :: ws, content => if occursIn w content then true else firstLiteralHit ws content

/-- The review-regex loop with `break`: true as soon as one review regex
matches the content. -/
def firstRegexHit : List (String → Bool) → String → Bool
  | [], _ => false
  | r :: rs, content => if r content then true else firstRegexHit rs content

/-- The human-review keyword section of `moderate_post`: first literal hit
adds the marker and decrements the score and stops; the regexes are tried
only when no literal hit occurred, with the same effect. -/
def reviewAdjust (lits : List String) (rs : List (String → Bool)) (content : String)
    (labels : Finset String) (score : ℚ) : Finset String × ℚ :=
  if firstLiteralHit lits content then
    (insert "meta:needs-human-review" labels, score - 1)
  else if firstRegexHit rs content then
    (insert "meta:needs-human-review" labels, score - 1)
  else (labels, score)

/-- The default `attributes` list of `get_perspective_scores`. -/
def default_attributes : List String :=
  ["TOXICITY", "FLIRTATION", "INSULT", "THREAT", "SEVERE_TOXICITY", "INCOHERENT"]

/-- Association-list lookup with a default (model of Python `dict.get`). -/
def lookupD (m : List (String × ℚ)) (k : String) (d : ℚ) : ℚ :=
  match m.find? (fun p => p.1 == k) with
  | some p => p.2
  | none => d

/-- `AutomatedLabeler.get_perspective_scores`, modelled on the outcome of
the network call: on any request/JSON failure the handler returns all-zero
scores; on success each requested attribute is extracted from the response
with fallback `0.0`. -/
def get_perspective_scores (resp : Except String (List (String × ℚ)))
    (attributes : List String) : List (String × ℚ) :=
  match resp with
  | .error _ => attributes.map (fun a => (a, 0))
  | .ok scores_json => attributes.map (fun a => (a, lookupD scores_json a 0))

/-- The Perspective-based adjustment block of `moderate_post`: the humor
flags add the review marker and downgrade the score by 1, then the toxicity
score nudges the accumulator by +1, +0.5 or -0.5. -/
def adjust (scores : List (String × ℚ)) (lr : Finset String × ℚ) : Finset String × ℚ :=
  let hum :=
    if lookupD scores "INCOHERENT" 0 > 7/10 ∨ lookupD scores "FLIRTATION" 0 > 7/10 then
      (insert "meta:needs-human-review" lr.1, lr.2 - 1)
    else lr
  let toxicity := lookupD scores "TOXICITY" 0
  let score :=
    if toxicity > 8/10 then hum.2 + 1
    else if toxicity ≥ 6/10 then hum.2 + 1/2
    else if toxicity < 3/10 then hum.2 - 1/2
    else hum.2
  (hum.1, score)

/-- The final severity level assignment of `moderate_post`. -/
def severity_level (s : ℚ) : ℕ := if s ≥ 6 then 3 else if s ≥ 3 then 2 else 1

/-- The synthetic severity label `f"severity-level-{severity_level}"`. -/
def sevLabel (n : ℕ) : String := "severity-level-" ++ toString n

/-- The literal scan followed by the regex scan of `moderate_post`. -/
def scanState (L : AutomatedLabeler) (content : String) : ModState :=
  regexScan L.regex_patterns content (literalScan L.literal_lexicon content)

/-- State of `moderate_post` after the scans and the human-review keyword
section: the label set and the severity score just before the Perspective
block. -/
def afterReview (L : AutomatedLabeler) (text : String) : Finset String × ℚ :=
  let content := lowerStr text
  let st := scanState L content
  reviewAdjust L.review_literals L.review_regexes content st.labels st.severity_score

/-- `AutomatedLabeler.moderate_post` on already-fetched post text. The post
text is lower-cased, scanned for literal phrases and regexes with
deduplication by pattern, checked for review keywords, and — only when the
label set is non-empty — adjusted with the Perspective scores and given its
synthetic severity label. -/
def moderate_post (L : AutomatedLabeler) (resp : Except String (List (String × ℚ)))
    (text : String) : Finset String :=
  let lr := afterReview L text
  if lr.1 = ∅ then lr.1
  else
    let a := adjust (get_perspective_scores resp default_attributes) lr
    insert (sevLabel (severity_level a.2)) a.1

/-! Specification-side definitions: an instrumented copy of the scan state
that additionally records the deduplicated match list (the spec's MatchSet),
plus the derived notions the claims speak about.  The instrumented fold is
proved to project onto the source fold. -/

/-- The scan state extended with a ghost field `mlist` recording, in order,
every `(pattern_id, category)` pair that was accepted (i.e. that passed the
category gate and the `matches_found` dedup check). -/
structure ModStateI where
  labels : Finset String
  matches_found : Finset String
  severity_score : ℚ
  mlist : List (String × String)

/-- Forget the ghost match list. -/
def stateOf (s : ModStateI) : ModState := ⟨s.labels, s.matches_found, s.severity_score⟩

/-- Instrumented version of `literalStep`: identical on the source fields,
and records the accepted match. -/
def literalStepI (s : ModStateI) (ev : String × String) : ModStateI :=
  if ev.2 ∈ label_names ∧ ev.1 ∉ s.matches_found then
    ⟨insert ev.2 s.labels, insert ev.1 s.matches_found, s.severity_score + weight ev.2,
      s.mlist ++ [ev]⟩
  else s

/-- The `(pattern, category)` pairs of the regexes that match the content,
in source order: the effective event stream of the regex loop. -/
def regexEvents (rs : List RegexEntry) (content : String) : List (String × String) :=
  (rs.filter (fun r => r.search content)).map (fun r => (r.pattern, r.category))

/-- The combined event stream of one scan: literal occurrences first, then
matching regexes (the order of the two loops of `moderate_post`). -/
def scanEvents (L : AutomatedLabeler) (content : String) : List (String × String) :=
  autoEvents L.literal_lexicon content ++ regexEvents L.regex_patterns content

/-- The instrumented scan. -/
def scanStateI (L : AutomatedLabeler) (content : String) : ModStateI :=
  (scanEvents L content).foldl literalStepI ⟨∅, ∅, 0, []⟩

/-- The MatchSet of one classification call: the deduplicated list of
accepted `(pattern_id, category)` matches. -/
def matchSet (L : AutomatedLabeler) (text : String) : List (String × String) :=
  (scanStateI L (lowerStr text)).mlist

/-- The base severity score of one call: the accumulator value after the
literal and regex loops, before review and Perspective adjustments. -/
def baseScore (L : AutomatedLabeler) (text : String) : ℚ :=
  (scanState L (lowerStr text)).severity_score

/-- The severity score after all adjustments, whose threshold image is the
level emitted by `moderate_post`. -/
def adjustedScore (L : AutomatedLabeler) (resp : Except String (List (String × ℚ)))
    (text : String) : ℚ :=
  (adjust (get_perspective_scores resp default_attributes) (afterReview L text)).2

/-- The three synthetic severity labels. -/
def sevTokens : Finset String := {sevLabel 1, sevLabel 2, sevLabel 3}

/-- A pair list is consistent when no pattern is associated with two
different categories. -/
def ConsistentPairs (l : List (String × String)) : Prop :=
  ∀ p c c', (p, c) ∈ l → (p, c') ∈ l → c = c'

/-- All `(pattern, category)` associations an `AutomatedLabeler` can ever
produce events from: the literal dict plus the regex list. -/
def scanPairs (L : AutomatedLabeler) : List (String × String) :=
  L.literal_lexicon ++ L.regex_patterns.map (fun r => (r.pattern, r.category))

/-- Invariant tying an instrumented scan state to its ghost match list:
`matches_found` is the set of recorded pattern ids, the pattern ids are
pairwise distinct (dedup), `labels` is the set of recorded categories, the
score is the sum of the weights of the recorded matches, and every recorded
category is allowed. -/
structure GoodI (s : ModStateI) : Prop where
  matches_eq : s.matches_found = (s.mlist.map Prod.fst).toFinset
  keys_nodup : (s.mlist.map Prod.fst).Nodup
  labels_eq : s.labels = (s.mlist.map Prod.snd).toFinset
  score_eq : s.severity_score = (s.mlist.map (fun m => weight m.2)).sum
  cats_mem : ∀ m ∈ s.mlist, m.2 ∈ label_names

/-- The phrases of the rows that `load_lexicon` skips with a warning. -/
def lexWarningsOf (compile : String → Option (String → Bool)) (rows : List Row) :
    List String :=
  rows.filterMap (fun row =>
    if lexRegexFlag row.is_regex then
      match compile row.phrase_or_pattern with
      | some _ => none
      | none => some row.phrase_or_pattern
    else none)

/-- The phrases of the rows that `load_review_keywords` skips with a
warning. -/
def reviewWarningsOf (compile : String → Option (String → Bool)) (rows : List Row) :
    List String :=
  rows.filterMap (fun row =>
    if reviewRegexFlag row.is_regex then
      match compile row.phrase_or_pattern with
      | some _ => none
      | none => some row.phrase_or_pattern
    else none)

/-! Basic lemmas: the instrumented fold projects onto the source fold, the
regex loop is the literal fold over its effective event stream, and the
event streams are characterised by occurrence. -/

theorem stateOf_literalStepI (s : ModStateI) (ev : String × String) :
    stateOf (literalStepI s ev) = literalStep (stateOf s) ev := by
  by_cases h : ev.2 ∈ label_names ∧ ev.1 ∉ s.matches_found
  · simp [literalStepI, literalStep, stateOf, h]
  · simp [literalStepI, literalStep, stateOf, h]

theorem stateOf_foldl (evs : List (String × String)) :
    ∀ s : ModStateI, stateOf (evs.foldl literalStepI s) = evs.foldl literalStep (stateOf s) := by
  induction evs with
  | nil => intro s; rfl
  | cons e rest ih =>
    intro s
    simp only [List.foldl_cons, ih, stateOf_literalStepI]

theorem regexStep_eq_literalStep (content : String) (st : ModState) (r : RegexEntry)
    (hs : r.search content = true) :
    regexStep content st r = literalStep st (r.pattern, r.category) := by
  by_cases hc : r.category ∈ label_names <;>
    by_cases hm : r.pattern ∉ st.matches_found <;>
      simp [regexStep, literalStep, hs, hc, hm]

theorem regexScan_eq_foldl (rs : List RegexEntry) (content : String) :
    ∀ st : ModState, regexScan rs content st = (regexEvents rs content).foldl literalStep st := by
  induction rs with
  | nil => intro st; rfl
  | cons r rest ih =>
    intro st
    by_cases hs : r.search content = true
    · simp only [regexScan, List.foldl_cons, regexEvents, List.filter_cons, hs,
        if_pos, List.map_cons]
      rw [regexStep_eq_literalStep content st r hs]
      exact ih _
    · have hs' : r.search content = false := by
        cases h : r.search content
        · rfl
        · exact absurd h hs
      have : regexStep content st r = st := by simp [regexStep, hs']
      simp only [regexScan, List.foldl_cons, this, regexEvents, List.filter_cons, hs']
      exact ih st

theorem scanState_eq_foldl (L : AutomatedLabeler) (content : String) :
    scanState L content = (scanEvents L content).foldl literalStep ⟨∅, ∅, 0⟩ := by
  unfold scanState scanEvents literalScan
  rw [List.foldl_append, regexScan_eq_foldl]

theorem scanState_eq_stateOf (L : AutomatedLabeler) (content : String) :
    scanState L content = stateOf (scanStateI L content) := by
  rw [scanState_eq_foldl, scanStateI, stateOf_foldl]
  rfl

theorem mem_autoEvents (litMap : List (String × String)) (content : String)
    (e : String × String) :
    e ∈ autoEvents litMap content ↔ e ∈ litMap ∧ occursIn e.1 content = true := by
  simp only [autoEvents, List.mem_flatMap, List.mem_range, List.mem_filter, occursIn,
    List.any_eq_true, List.mem_range]
  constructor
  · rintro ⟨i, hi, he, hl⟩
    exact ⟨he, i, hi, hl⟩
  · rintro ⟨he, i, hi, hl⟩
    exact ⟨i, hi, he, hl⟩

theorem mem_regexEvents (rs : List RegexEntry) (content : String) (p c : String) :
    (p, c) ∈ regexEvents rs content ↔
      ∃ r ∈ rs, r.search content = true ∧ r.pattern = p ∧ r.category = c := by
  simp only [regexEvents, List.mem_map, List.mem_filter, Prod.mk.injEq]
  constructor
  · rintro ⟨r, ⟨hr, hs⟩, hp, hc⟩
    exact ⟨r, hr, hs, hp, hc⟩
  · rintro ⟨r, hr, hs, hp, hc⟩
    exact ⟨r, ⟨hr, hs⟩, hp, hc⟩

/-! The scan invariant: the ghost match list determines the source fields,
its pattern ids are pairwise distinct, and its membership is characterised
by the event stream. -/

theorem goodI_literalStepI {s : ModStateI} (h : GoodI s) (ev : String × String) :
    GoodI (literalStepI s ev) := by
  by_cases hc : ev.2 ∈ label_names ∧ ev.1 ∉ s.matches_found
  · have hstep : literalStepI s ev =
        ⟨insert ev.2 s.labels, insert ev.1 s.matches_found,
          s.severity_score + weight ev.2, s.mlist ++ [ev]⟩ := by
      simp [literalStepI, hc]
    rw [hstep]
    obtain ⟨hm, hk, hl, hs, hcat⟩ := h
    have hnot : ev.1 ∉ s.mlist.map Prod.fst := by
      intro hmem
      exact hc.2 (hm ▸ List.mem_toFinset.mpr hmem)
    refine ⟨?_, ?_, ?_, ?_, ?_⟩
    · ext x
      simp [hm, List.mem_toFinset, or_comm]
    · simpa [List.nodup_append, hk] using hnot
    · ext x
      simp [hl, List.mem_toFinset, or_comm]
    · simp [hs, List.map_append, List.sum_append]
    · intro m hmm
      rcases List.mem_append.mp hmm with h1 | h2
      · exact hcat m h1
      · rcases List.mem_singleton.mp h2 with rfl
        exact hc.1
  · simpa [literalStepI, hc] using h

theorem goodI_foldl (evs : List (String × String)) :
    ∀ s : ModStateI, GoodI s → GoodI (evs.foldl literalStepI s) := by
  induction evs with
  | nil => intro s hg; exact hg
  | cons e rest ih =>
    intro s hg
    exact ih _ (goodI_literalStepI hg e)

theorem goodI_scanStateI (L : AutomatedLabeler) (content : String) :
    GoodI (scanStateI L content) :=
  goodI_foldl _ _ ⟨by simp, by simp, by simp, by simp, by simp⟩

theorem mem_mlist_foldl (evs : List (String × String)) :
    ∀ s : ModStateI,
      (∀ q d d', (q, d) ∈ s.mlist ++ evs → (q, d') ∈ s.mlist ++ evs → d = d') →
      ∀ p c, ((p, c) ∈ (evs.foldl literalStepI s).mlist ↔
        (p, c) ∈ s.mlist ∨ (c ∈ label_names ∧ (p, c) ∈ evs ∧ p ∉ s.matches_found)) := by
  induction evs with
  | nil =>
    intro s _ p c
    simp
  | cons e rest ih =>
    intro s hcons p c
    simp only [List.foldl_cons]
    by_cases hc : e.2 ∈ label_names ∧ e.1 ∉ s.matches_found
    · have hstep : literalStepI s e =
          ⟨insert e.2 s.labels, insert e.1 s.matches_found,
            s.severity_score + weight e.2, s.mlist ++ [e]⟩ := by
        simp [literalStepI, hc]
      have hcons' : ∀ q d d',
          (q, d) ∈ (s.mlist ++ [e]) ++ rest → (q, d') ∈ (s.mlist ++ [e]) ++ rest → d = d' := by
        intro q d d' h1 h2
        apply hcons q d d' <;> · simp only [List.append_assoc, List.singleton_append,
          List.mem_append, List.mem_cons] at *
                                 tauto
      have hih := ih (literalStepI s e) (by rw [hstep]; exact hcons') p c
      rw [hstep] at hih
      simp only at hih
      rw [hstep, hih]
      constructor
      · rintro (hml | he)
        · rcases List.mem_append.mp hml with h1 | h2
          · exact Or.inl h1
          · rcases List.mem_singleton.mp h2 with rfl
            exact Or.inr ⟨hc.1, List.mem_cons_self _ _, hc.2⟩
        · obtain ⟨hln, hr, hnm⟩ := he
          rw [Finset.mem_insert] at hnm
          push_neg at hnm
          exact Or.inr ⟨hln, List.mem_cons_of_mem _ hr, hnm.2⟩
      · rintro (hml | ⟨hln, hin, hnm⟩)
        · exact Or.inl (List.mem_append.mpr (Or.inl hml))
        · rcases List.mem_cons.mp hin with heq | hr
          · exact Or.inl (List.mem_append.mpr (Or.inr (by simp [heq])))
          · by_cases hpe : p = e.1
            · have : c = e.2 := by
                apply hcons p c e.2
                · exact List.mem_append.mpr (Or.inr (List.mem_cons_of_mem _ hr))
                · exact List.mem_append.mpr (Or.inr (by
                    subst hpe
                    exact List.mem_cons_self _ _))
              exact Or.inl (List.mem_append.mpr (Or.inr (by simp [hpe, this])))
            · refine Or.inr ⟨hln, hr, ?_⟩
              rw [Finset.mem_insert]
              push_neg
              exact ⟨hpe, hnm⟩
    · have hstep : literalStepI s e = s := by simp [literalStepI, hc]
      have hcons' : ∀ q d d',
          (q, d) ∈ s.mlist ++ rest → (q, d') ∈ s.mlist ++ rest → d = d' := by
        intro q d d' h1 h2
        apply hcons q d d' <;> · simp only [List.mem_append, List.mem_cons] at *
                                 tauto
      have hih := ih s hcons' p c
      rw [hstep, hih]
      constructor
      · rintro (hml | ⟨hln, hr, hnm⟩)
        · exact Or.inl hml
        · exact Or.inr ⟨hln, List.mem_cons_of_mem _ hr, hnm⟩
      · rintro (hml | ⟨hln, hin, hnm⟩)
        · exact Or.inl hml
        · rcases List.mem_cons.mp hin with heq | hr
          · exfalso
            apply hc
            have h1 : c = e.2 := (Prod.mk.injEq _ _ _ _ ▸ heq).2
            have h2 : p = e.1 := (Prod.mk.injEq _ _ _ _ ▸ heq).1
            exact ⟨h1 ▸ hln, h2 ▸ hnm⟩
          · exact Or.inr ⟨hln, hr, hnm⟩

theorem consistent_mono {l l' : List (String × String)}
    (hsub : ∀ x ∈ l', x ∈ l) (h : ConsistentPairs l) : ConsistentPairs l' := by
  intro p c c' h1 h2
  exact h p c c' (hsub _ h1) (hsub _ h2)

theorem scanEvents_subset_scanPairs (L : AutomatedLabeler) (content : String) :
    ∀ e ∈ scanEvents L content, e ∈ scanPairs L := by
  intro e he
  rcases List.mem_append.mp he with h1 | h2
  · exact List.mem_append.mpr (Or.inl ((mem_autoEvents _ _ _).mp h1).1)
  · obtain ⟨r, hr, _, hp, hcat⟩ := (mem_regexEvents _ _ e.1 e.2).mp h2
    refine List.mem_append.mpr (Or.inr ?_)
    exact List.mem_map.mpr ⟨r, hr, by rw [hp, hcat]⟩

theorem mem_scanStateI (L : AutomatedLabeler) (content : String)
    (hcons : ConsistentPairs (scanPairs L)) (p c : String) :
    (p, c) ∈ (scanStateI L content).mlist ↔
      c ∈ label_names ∧
        (((p, c) ∈ L.literal_lexicon ∧ occursIn p content = true) ∨
          ∃ r ∈ L.regex_patterns, r.search content = true ∧
            r.pattern = p ∧ r.category = c) := by
  have hcons' : ∀ q d d',
      (q, d) ∈ ([] : List (String × String)) ++ scanEvents L content →
      (q, d') ∈ ([] : List (String × String)) ++ scanEvents L content → d = d' := by
    intro q d d' h1 h2
    simp only [List.nil_append] at h1 h2
    exact consistent_mono (scanEvents_subset_scanPairs L content) hcons q d d' h1 h2
  have h := mem_mlist_foldl (scanEvents L content) ⟨∅, ∅, 0, []⟩ hcons' p c
  simp only [List.not_mem_nil, Finset.not_mem_empty, not_false_iff, and_true,
    false_or] at h
  rw [scanStateI, h]
  simp only [scanEvents, List.mem_append, mem_autoEvents, mem_regexEvents]

theorem mem_matchSet (L : AutomatedLabeler) (text : String)
    (hcons : ConsistentPairs (scanPairs L)) (p c : String) :
    (p, c) ∈ matchSet L text ↔
      c ∈ label_names ∧
        (((p, c) ∈ L.literal_lexicon ∧ occursIn p (lowerStr text) = true) ∨
          ∃ r ∈ L.regex_patterns, r.search (lowerStr text) = true ∧
            r.pattern = p ∧ r.category = c) := by
  rw [matchSet]
  exact mem_scanStateI L (lowerStr text) hcons p c

theorem baseScore_eq_sum (L : AutomatedLabeler) (text : String) :
    baseScore L text = ((matchSet L text).map (fun m => weight m.2)).sum := by
  rw [baseScore, scanState_eq_stateOf]
  exact (goodI_scanStateI L (lowerStr text)).score_eq

theorem matchSet_keys_nodup (L : AutomatedLabeler) (text : String) :
    ((matchSet L text).map Prod.fst).Nodup :=
  (goodI_scanStateI L (lowerStr text)).keys_nodup

/-! Monotonicity of the label set through the pipeline, and the shape of
the final result. -/

theorem literalStep_labels_subset (s : ModState) (ev : String × String) :
    s.labels ⊆ (literalStep s ev).labels := by
  unfold literalStep
  split
  · exact Finset.subset_insert _ _
  · exact Finset.Subset.refl _

theorem foldl_literalStep_labels_subset (evs : List (String × String)) :
    ∀ s : ModState, s.labels ⊆ (evs.foldl literalStep s).labels := by
  induction evs with
  | nil => intro s; exact Finset.Subset.refl _
  | cons e rest ih =>
    intro s
    exact (literalStep_labels_subset s e).trans (ih _)

theorem reviewAdjust_labels_subset (lits : List String) (rs : List (String → Bool))
    (content : String) (labels : Finset String) (score : ℚ) :
    labels ⊆ (reviewAdjust lits rs content labels score).1 := by
  unfold reviewAdjust
  split
  · exact Finset.subset_insert _ _
  · split
    · exact Finset.subset_insert _ _
    · exact Finset.Subset.refl _

theorem adjust_fst (scores : List (String × ℚ)) (lr : Finset String × ℚ) :
    (adjust scores lr).1 = lr.1 ∨
      (adjust scores lr).1 = insert "meta:needs-human-review" lr.1 := by
  by_cases hh : lookupD scores "INCOHERENT" 0 > 7/10 ∨ lookupD scores "FLIRTATION" 0 > 7/10
  · right; simp [adjust, hh]
  · left; simp [adjust, hh]

theorem adjust_labels_subset (scores : List (String × ℚ)) (lr : Finset String × ℚ) :
    lr.1 ⊆ (adjust scores lr).1 := by
  rcases adjust_fst scores lr with h | h <;> rw [h]
  exact Finset.subset_insert _ _

theorem moderate_post_eq (L : AutomatedLabeler) (resp : Except String (List (String × ℚ)))
    (text : String) :
    moderate_post L resp text =
      if (afterReview L text).1 = ∅ then (afterReview L text).1
      else insert (sevLabel (severity_level (adjustedScore L resp text)))
        (adjust (get_perspective_scores resp default_attributes) (afterReview L text)).1 :=
  rfl

theorem afterReview_labels_subset (L : AutomatedLabeler) (resp : Except String (List (String × ℚ)))
    (text : String) : (afterReview L text).1 ⊆ moderate_post L resp text := by
  rw [moderate_post_eq]
  split
  · exact Finset.Subset.refl _
  · exact (adjust_labels_subset _ _).trans (Finset.subset_insert _ _)

theorem scan_labels_subset_afterReview (L : AutomatedLabeler) (text : String) :
    (scanState L (lowerStr text)).labels ⊆ (afterReview L text).1 := by
  unfold afterReview
  exact reviewAdjust_labels_subset _ _ _ _ _

/-! The threshold map and the Perspective adjustment, numerically. -/

theorem severity_level_cases (s : ℚ) :
    severity_level s = 1 ∨ severity_level s = 2 ∨ severity_level s = 3 := by
  unfold severity_level
  split_ifs <;> simp

theorem severity_level_mono {s t : ℚ} (h : s ≤ t) : severity_level s ≤ severity_level t := by
  unfold severity_level
  split_ifs <;> first | (exfalso; linarith) | norm_num

theorem severity_level_eq_three_iff (s : ℚ) : severity_level s = 3 ↔ 6 ≤ s := by
  unfold severity_level
  split_ifs with h1 h2 <;> simp [h1]

theorem severity_level_eq_two_iff (s : ℚ) : severity_level s = 2 ↔ 3 ≤ s ∧ s < 6 := by
  unfold severity_level
  split_ifs with h1 h2
  · constructor
    · intro h; norm_num at h
    · rintro ⟨_, h6⟩; exfalso; linarith
  · constructor
    · intro _; exact ⟨h2, lt_of_not_le h1⟩
    · intro _; rfl
  · constructor
    · intro h; norm_num at h
    · rintro ⟨h3, _⟩; exact absurd h3 h2

theorem severity_level_eq_one_iff (s : ℚ) : severity_level s = 1 ↔ s < 3 := by
  unfold severity_level
  split_ifs with h1 h2
  · constructor
    · intro h; norm_num at h
    · intro h; exfalso; linarith
  · constructor
    · intro h; norm_num at h
    · intro h; exfalso; exact absurd h2 (not_le.mpr h)
  · simp [lt_of_not_le h2]

theorem adjust_snd_le (scores : List (String × ℚ)) (lr : Finset String × ℚ) :
    (adjust scores lr).2 ≤ lr.2 + 1 := by
  by_cases hh : lookupD scores "INCOHERENT" 0 > 7/10 ∨ lookupD scores "FLIRTATION" 0 > 7/10 <;>
    by_cases h1 : lookupD scores "TOXICITY" 0 > 8/10 <;>
      by_cases h2 : lookupD scores "TOXICITY" 0 ≥ 6/10 <;>
        by_cases h3 : lookupD scores "TOXICITY" 0 < 3/10 <;>
          simp [adjust, hh, h1, h2, h3] <;> linarith

/-! The failure path of the Perspective call. -/

theorem get_perspective_scores_error (e : String) (attributes : List String) :
    get_perspective_scores (.error e) attributes =
      get_perspective_scores (.ok []) attributes := rfl

theorem lookupD_zeros (attrs : List String) (k : String) :
    lookupD (attrs.map (fun a => (a, (0:ℚ)))) k 0 = 0 := by
  induction attrs with
  | nil => rfl
  | cons a rest ih =>
    by_cases h : (a == k) = true
    · simp [lookupD, List.find?_cons, h]
    · simp only [List.map_cons]
      rw [lookupD, List.find?_cons]
      simp only [h]
      rw [← lookupD]
      exact ih

theorem adjust_error (e : String) (lr : Finset String × ℚ) :
    adjust (get_perspective_scores (.error e) default_attributes) lr = (lr.1, lr.2 - 1/2) := by
  have hz : ∀ k, lookupD (get_perspective_scores (.error e) default_attributes) k 0 = 0 := by
    intro k
    exact lookupD_zeros default_attributes k
  simp [adjust, hz]
  norm_num

/-! The review-keyword loops. -/

theorem firstLiteralHit_eq_any (ws : List String) (content : String) :
    firstLiteralHit ws content = ws.any (fun w => occursIn w content) := by
  induction ws with
  | nil => rfl
  | cons w rest ih =>
    by_cases h : occursIn w content = true <;> simp [firstLiteralHit, h, ih]

theorem firstRegexHit_eq_any (rs : List (String → Bool)) (content : String) :
    firstRegexHit rs content = rs.any (fun r => r content) := by
  induction rs with
  | nil => rfl
  | cons r rest ih =>
    by_cases h : r content = true <;> simp [firstRegexHit, h, ih]

theorem firstLiteralHit_congr {ws : List String} {c₁ c₂ : String}
    (h : ∀ w ∈ ws, occursIn w c₁ = occursIn w c₂) :
    firstLiteralHit ws c₁ = firstLiteralHit ws c₂ := by
  induction ws with
  | nil => rfl
  | cons w rest ih =>
    simp only [firstLiteralHit]
    rw [h w (List.mem_cons_self _ _)]
    split
    · rfl
    · exact ih (fun x hx => h x (List.mem_cons_of_mem _ hx))

theorem firstRegexHit_congr {rs : List (String → Bool)} {c₁ c₂ : String}
    (h : ∀ r ∈ rs, r c₁ = r c₂) :
    firstRegexHit rs c₁ = firstRegexHit rs c₂ := by
  induction rs with
  | nil => rfl
  | cons r rest ih =>
    simp only [firstRegexHit]
    rw [h r (List.mem_cons_self _ _)]
    split
    · rfl
    · exact ih (fun x hx => h x (List.mem_cons_of_mem _ hx))

/-! Empty-scan lemmas for the no-match case. -/

theorem autoEvents_nil_of_no_occurrence {litMap : List (String × String)} {content : String}
    (h : ∀ e ∈ litMap, occursIn e.1 content = false) : autoEvents litMap content = [] := by
  rw [List.eq_nil_iff_forall_not_mem]
  intro e he
  rw [mem_autoEvents] at he
  exact absurd (h e he.1) (by simp [he.2])

theorem regexScan_no_match {rs : List RegexEntry} {content : String}
    (h : ∀ r ∈ rs, r.search content = false) :
    ∀ st, regexScan rs content st = st := by
  induction rs with
  | nil => intro st; rfl
  | cons r rest ih =>
    intro st
    have hr : regexStep content st r = st := by
      simp [regexStep, h r (List.mem_cons_self _ _)]
    simp only [regexScan, List.foldl_cons, hr]
    exact ih (fun x hx => h x (List.mem_cons_of_mem _ hx)) st

theorem firstLiteralHit_false {ws : List String} {content : String}
    (h : ∀ w ∈ ws, occursIn w content = false) :
    firstLiteralHit ws content = false := by
  induction ws with
  | nil => rfl
  | cons w rest ih =>
    simp only [firstLiteralHit, h w (List.mem_cons_self _ _)]
    simp only [Bool.false_eq_true, if_false]
    exact ih (fun x hx => h x (List.mem_cons_of_mem _ hx))

theorem firstRegexHit_false {rs : List (String → Bool)} {content : String}
    (h : ∀ r ∈ rs, r content = false) :
    firstRegexHit rs content = false := by
  induction rs with
  | nil => rfl
  | cons r rest ih =>
    simp only [firstRegexHit, h r (List.mem_cons_self _ _)]
    simp only [Bool.false_eq_true, if_false]
    exact ih (fun x hx => h x (List.mem_cons_of_mem _ hx))

/-! Lexicon-loading lemmas: python-dict insertion, key distinctness,
provenance of the stored entries, and the warning stream. -/

theorem dictInsert_mem {k v : String} {l : List (String × String)} {x : String × String}
    (h : x ∈ dictInsert k v l) : x = (k, v) ∨ x ∈ l := by
  induction l with
  | nil => simpa [dictInsert] using h
  | cons e rest ih =>
    by_cases he : e.1 = k
    · rw [dictInsert, if_pos he] at h
      rcases List.mem_cons.mp h with h | h
      · exact Or.inl h
      · exact Or.inr (List.mem_cons_of_mem _ h)
    · rw [dictInsert, if_neg he] at h
      rcases List.mem_cons.mp h with h | h
      · exact Or.inr (h ▸ List.mem_cons_self _ _)
      · rcases ih h with h' | h'
        · exact Or.inl h'
        · exact Or.inr (List.mem_cons_of_mem _ h')

theorem dictInsert_keys_mem {k v x : String} {l : List (String × String)}
    (h : x ∈ (dictInsert k v l).map Prod.fst) : x = k ∨ x ∈ l.map Prod.fst := by
  rw [List.mem_map] at h
  obtain ⟨p, hp, rfl⟩ := h
  rcases dictInsert_mem hp with h | h
  · left; rw [h]
  · right; exact List.mem_map.mpr ⟨p, h, rfl⟩

theorem dictInsert_keys_nodup {k v : String} {l : List (String × String)}
    (h : (l.map Prod.fst).Nodup) : ((dictInsert k v l).map Prod.fst).Nodup := by
  induction l with
  | nil => simp [dictInsert]
  | cons e rest ih =>
    by_cases he : e.1 = k
    · rw [dictInsert, if_pos he]
      simpa [← he] using h
    · rw [dictInsert, if_neg he]
      rw [List.map_cons, List.nodup_cons] at h ⊢
      obtain ⟨hne, hrest⟩ := h
      refine ⟨?_, ih hrest⟩
      intro hmem
      rcases dictInsert_keys_mem hmem with h' | h'
      · exact he h'
      · exact hne h'

theorem load_lexicon_fold_keys_nodup (compile : String → Option (String → Bool))
    (rows : List Row) :
    ∀ acc : LexiconLoad, (acc.literal_map.map Prod.fst).Nodup →
      (((rows.foldl (lexStep compile) acc).literal_map).map Prod.fst).Nodup := by
  induction rows with
  | nil => intro acc h; exact h
  | cons row rest ih =>
    intro acc h
    simp only [List.foldl_cons]
    apply ih
    unfold lexStep
    by_cases hf : lexRegexFlag row.is_regex = true
    · cases hc : compile row.phrase_or_pattern <;> simp [hf, hc, h]
    · simp only [hf, Bool.false_eq_true, if_false]
      exact dictInsert_keys_nodup h

theorem load_lexicon_keys_nodup (compile : String → Option (String → Bool))
    (rows : List Row) :
    (((load_lexicon compile rows).literal_map).map Prod.fst).Nodup :=
  load_lexicon_fold_keys_nodup compile rows ⟨[], [], []⟩ (by simp)

theorem load_lexicon_fold_mem (compile : String → Option (String → Bool)) (rows : List Row) :
    ∀ acc : LexiconLoad, ∀ e ∈ (rows.foldl (lexStep compile) acc).literal_map,
      e ∈ acc.literal_map ∨
        ∃ row ∈ rows, e = (lowerStr row.phrase_or_pattern, lowerStr row.category) := by
  induction rows with
  | nil => intro acc e he; exact Or.inl he
  | cons row rest ih =>
    intro acc e he
    simp only [List.foldl_cons] at he
    rcases ih (lexStep compile acc row) e he with h | h
    · unfold lexStep at h
      by_cases hf : lexRegexFlag row.is_regex = true
      · rcases hc : compile row.phrase_or_pattern with _ | f <;>
          · simp only [hf, if_pos, hc] at h
            exact Or.inl h
      · simp only [hf, Bool.false_eq_true, if_false] at h
        rcases dictInsert_mem h with h' | h'
        · exact Or.inr ⟨row, List.mem_cons_self _ _, h'⟩
        · exact Or.inl h'
    · obtain ⟨row', hr, he'⟩ := h
      exact Or.inr ⟨row', List.mem_cons_of_mem _ hr, he'⟩

theorem load_lexicon_mem (compile : String → Option (String → Bool)) (rows : List Row) :
    ∀ e ∈ (load_lexicon compile rows).literal_map,
      ∃ row ∈ rows, e = (lowerStr row.phrase_or_pattern, lowerStr row.category) := by
  intro e he
  rcases load_lexicon_fold_mem compile rows ⟨[], [], []⟩ e he with h | h
  · simp at h
  · exact h

theorem load_lexicon_fold_warnings (compile : String → Option (String → Bool))
    (rows : List Row) :
    ∀ acc : LexiconLoad,
      (rows.foldl (lexStep compile) acc).warnings = acc.warnings ++ lexWarningsOf compile rows := by
  induction rows with
  | nil => intro acc; simp [lexWarningsOf]
  | cons row rest ih =>
    intro acc
    simp only [List.foldl_cons, ih]
    unfold lexStep
    by_cases hf : lexRegexFlag row.is_regex = true
    · rcases hc : compile row.phrase_or_pattern with _ | f <;>
        simp [hf, hc, lexWarningsOf, List.filterMap_cons]
    · simp [hf, lexWarningsOf, List.filterMap_cons]

theorem load_review_fold_warnings (compile : String → Option (String → Bool))
    (rows : List Row) :
    ∀ acc : ReviewLoad,
      (rows.foldl (reviewStep compile) acc).warnings =
        acc.warnings ++ reviewWarningsOf compile rows := by
  induction rows with
  | nil => intro acc; simp [reviewWarningsOf]
  | cons row rest ih =>
    intro acc
    simp only [List.foldl_cons, ih]
    unfold reviewStep
    by_cases hf : reviewRegexFlag row.is_regex = true
    · rcases hc : compile row.phrase_or_pattern with _ | f <;>
        simp [hf, hc, reviewWarningsOf, List.filterMap_cons]
    · simp [hf, reviewWarningsOf, List.filterMap_cons]

theorem load_lexicon_fold_main (compile : String → Option (String → Bool)) (rows : List Row) :
    ∀ a b : LexiconLoad, a.literal_map = b.literal_map → a.regex_patterns = b.regex_patterns →
      (rows.foldl (lexStep compile) a).literal_map =
          (rows.foldl (lexStep compile) b).literal_map ∧
        (rows.foldl (lexStep compile) a).regex_patterns =
          (rows.foldl (lexStep compile) b).regex_patterns := by
  induction rows with
  | nil => intro a b h1 h2; exact ⟨h1, h2⟩
  | cons row rest ih =>
    intro a b h1 h2
    simp only [List.foldl_cons]
    refine ih _ _ ?_ ?_ <;>
      · unfold lexStep
        by_cases hf : lexRegexFlag row.is_regex = true
        · rcases hc : compile row.phrase_or_pattern with _ | f <;> simp [hf, hc, h1, h2]
        · simp [hf, h1, h2]

theorem load_review_fold_main (compile : String → Option (String → Bool)) (rows : List Row) :
    ∀ a b : ReviewLoad, a.literal = b.literal → a.regex = b.regex →
      (rows.foldl (reviewStep compile) a).literal =
          (rows.foldl (reviewStep compile) b).literal ∧
        (rows.foldl (reviewStep compile) a).regex =
          (rows.foldl (reviewStep compile) b).regex := by
  induction rows with
  | nil => intro a b h1 h2; exact ⟨h1, h2⟩
  | cons row rest ih =>
    intro a b h1 h2
    simp only [List.foldl_cons]
    refine ih _ _ ?_ ?_ <;>
      · unfold reviewStep
        by_cases hf : reviewRegexFlag row.is_regex = true
        · rcases hc : compile row.phrase_or_pattern with _ | f <;> simp [hf, hc, h1, h2]
        · simp [hf, h1, h2]

theorem lexStep_bad (compile : String → Option (String → Bool)) (acc : LexiconLoad) (bad : Row)
    (hf : lexRegexFlag bad.is_regex = true) (hc : compile bad.phrase_or_pattern = none) :
    lexStep compile acc bad =
      { acc with warnings := acc.warnings ++ [bad.phrase_or_pattern] } := by
  simp [lexStep, hf, hc]

theorem reviewStep_bad (compile : String → Option (String → Bool)) (acc : ReviewLoad) (bad : Row)
    (hf : reviewRegexFlag bad.is_regex = true) (hc : compile bad.phrase_or_pattern = none) :
    reviewStep compile acc bad =
      { acc with warnings := acc.warnings ++ [bad.phrase_or_pattern] } := by
  simp [reviewStep, hf, hc]

theorem load_lexicon_skip_bad (compile : String → Option (String → Bool))
    (r1 r2 : List Row) (bad : Row)
    (hf : lexRegexFlag bad.is_regex = true) (hc : compile bad.phrase_or_pattern = none) :
    (load_lexicon compile (r1 ++ bad :: r2)).literal_map =
        (load_lexicon compile (r1 ++ r2)).literal_map ∧
      (load_lexicon compile (r1 ++ bad :: r2)).regex_patterns =
        (load_lexicon compile (r1 ++ r2)).regex_patterns := by
  unfold load_lexicon
  rw [List.foldl_append, List.foldl_append, List.foldl_cons,
    lexStep_bad compile _ bad hf hc]
  exact load_lexicon_fold_main compile r2 _ _ rfl rfl

theorem load_review_skip_bad (compile : String → Option (String → Bool))
    (q1 q2 : List Row) (bad : Row)
    (hf : reviewRegexFlag bad.is_regex = true) (hc : compile bad.phrase_or_pattern = none) :
    (load_review_keywords compile (q1 ++ bad :: q2)).literal =
        (load_review_keywords compile (q1 ++ q2)).literal ∧
      (load_review_keywords compile (q1 ++ bad :: q2)).regex =
        (load_review_keywords compile (q1 ++ q2)).regex := by
  unfold load_review_keywords
  rw [List.foldl_append, List.foldl_append, List.foldl_cons,
    reviewStep_bad compile _ bad hf hc]
  exact load_review_fold_main compile q2 _ _ rfl rfl

/-- C7: a lexicon row whose regex fails to compile is skipped with a warning
diagnostic and never aborts loading.  For any row sequence containing an
invalid regex row, both `load_lexicon` and `load_review_keywords` return
(loading is total in the model), all other entries load exactly as they
would without the bad row, the bad row's phrase is recorded in the warning
stream at its position, and the resulting labeler — hence all subsequent
matching — is identical to the one loaded without the invalid row. -/
theorem c7_invalid_regex_skipped (compile : String → Option (String → Bool))
    (r1 r2 q1 q2 : List Row) (bad badr : Row)
    (hf : lexRegexFlag bad.is_regex = true) (hc : compile bad.phrase_or_pattern = none)
    (hf' : reviewRegexFlag badr.is_regex = true) (hc' : compile badr.phrase_or_pattern = none) :
    (load_lexicon compile (r1 ++ bad :: r2)).literal_map =
        (load_lexicon compile (r1 ++ r2)).literal_map ∧
      (load_lexicon compile (r1 ++ bad :: r2)).regex_patterns =
        (load_lexicon compile (r1 ++ r2)).regex_patterns ∧
      (load_lexicon compile (r1 ++ bad :: r2)).warnings =
        lexWarningsOf compile r1 ++ bad.phrase_or_pattern :: lexWarningsOf compile r2 ∧
      (load_lexicon compile (r1 ++ r2)).warnings =
        lexWarningsOf compile r1 ++ lexWarningsOf compile r2 ∧
      (load_review_keywords compile (q1 ++ badr :: q2)).literal =
        (load_review_keywords compile (q1 ++ q2)).literal ∧
      (load_review_keywords compile (q1 ++ badr :: q2)).regex =
        (load_review_keywords compile (q1 ++ q2)).regex ∧
      (load_review_keywords compile (q1 ++ badr :: q2)).warnings =
        reviewWarningsOf compile q1 ++ badr.phrase_or_pattern :: reviewWarningsOf compile q2 ∧
      AutomatedLabeler.init compile (r1 ++ bad :: r2) (q1 ++ badr :: q2) =
        AutomatedLabeler.init compile (r1 ++ r2) (q1 ++ q2) := by
  obtain ⟨hlit, hrx⟩ := load_lexicon_skip_bad compile r1 r2 bad hf hc
  obtain ⟨hrl, hrr⟩ := load_review_skip_bad compile q1 q2 badr hf' hc'
  refine ⟨hlit, hrx, ?_, ?_, hrl, hrr, ?_, ?_⟩
  · rw [load_lexicon, load_lexicon_fold_warnings]
    simp [lexWarningsOf, List.filterMap_append, List.filterMap_cons, hf, hc]
  · rw [load_lexicon, load_lexicon_fold_warnings]
    simp [lexWarningsOf, List.filterMap_append]
  · rw [load_review_keywords, load_review_fold_warnings]
    simp [reviewWarningsOf, List.filterMap_append, List.filterMap_cons, hf', hc']
  · show AutomatedLabeler.mk
        (load_lexicon compile (r1 ++ bad :: r2)).literal_map
        (load_lexicon compile (r1 ++ bad :: r2)).regex_patterns
        (load_review_keywords compile (q1 ++ badr :: q2)).literal
        (load_review_keywords compile (q1 ++ badr :: q2)).regex =
      AutomatedLabeler.mk
        (load_lexicon compile (r1 ++ r2)).literal_map
        (load_lexicon compile (r1 ++ r2)).regex_patterns
        (load_review_keywords compile (q1 ++ q2)).literal
        (load_review_keywords compile (q1 ++ q2)).regex
    rw [hlit, hrx, hrl, hrr]

/-- C7 witness: a concrete invalid-regex row (a compiler that rejects the
pattern) between two valid rows, in both loader files. -/
theorem c7_witness :
    lexRegexFlag (Row.mk "self harm" "(" (.str "TRUE")).is_regex = true ∧
      (fun s => if s = "(" then none else some (fun t => occursIn s t))
          (Row.mk "self harm" "(" (.str "TRUE")).phrase_or_pattern = none ∧
      (load_lexicon (fun s => if s = "(" then none else some (fun t => occursIn s t))
          ([⟨"self harm", "hurt myself", .str "FALSE"⟩] ++
            (Row.mk "self harm" "(" (.str "TRUE")) ::
              [⟨"trauma discussion", "abc", .str "FALSE"⟩])).literal_map =
        (load_lexicon (fun s => if s = "(" then none else some (fun t => occursIn s t))
          ([⟨"self harm", "hurt myself", .str "FALSE"⟩] ++
            [⟨"trauma discussion", "abc", .str "FALSE"⟩])).literal_map := by
  refine ⟨by decide, rfl, ?_⟩
  exact (c7_invalid_regex_skipped
    (fun s => if s = "(" then none else some (fun t => occursIn s t))
    [⟨"self harm", "hurt myself", .str "FALSE"⟩]
    [⟨"trauma discussion", "abc", .str "FALSE"⟩] [] []
    (Row.mk "self harm" "(" (.str "TRUE")) (Row.mk "self harm" "(" (.str "TRUE"))
    (by decide) rfl (by decide) rfl).1

/-- C10: the two loaders classify the `is_regex` field differently.
`load_lexicon` treats a row as a regex exactly when
`str(is_regex).strip().upper() == "TRUE"`, while `load_review_keywords`
treats it as a regex when the raw value is truthy or upper-cases to
`"TRUE"`; hence a row whose `is_regex` field is the non-empty string
`"FALSE"` is stored as a literal phrase by `load_lexicon` but compiled as a
regex pattern by `load_review_keywords`. -/
theorem c10_regex_flag_divergence :
    lexRegexFlag (.str "FALSE") = false ∧
      reviewRegexFlag (.str "FALSE") = true ∧
      (∀ s : String, s ≠ "" → reviewRegexFlag (.str s) = true) ∧
      ∀ (compile : String → Option (String → Bool)) (cat ph : String) (f : String → Bool),
        compile ph = some f →
          (load_lexicon compile [⟨cat, ph, .str "FALSE"⟩]).literal_map =
              [(lowerStr ph, lowerStr cat)] ∧
            (load_lexicon compile [⟨cat, ph, .str "FALSE"⟩]).regex_patterns = [] ∧
            (load_review_keywords compile [⟨cat, ph, .str "FALSE"⟩]).literal = [] ∧
            (load_review_keywords compile [⟨cat, ph, .str "FALSE"⟩]).regex = [f] := by
  have hl : lexRegexFlag (.str "FALSE") = false := by decide
  have hr : reviewRegexFlag (.str "FALSE") = true := by decide
  refine ⟨hl, hr, ?_, ?_⟩
  · intro s hs
    simp [reviewRegexFlag, pyTruthy, pyStrOf, hs]
  · intro compile cat ph f hcf
    refine ⟨?_, ?_, ?_, ?_⟩ <;>
      simp [load_lexicon, lexStep, load_review_keywords, reviewStep, hl, hr, hcf, dictInsert]

/-! Helpers about key consistency, the label vocabulary, the empty scan,
and invariance of the scan under filtering out disallowed categories. -/

theorem nodup_keys_consistent {l : List (String × String)}
    (h : (l.map Prod.fst).Nodup) : ConsistentPairs l := by
  induction l with
  | nil => intro p c c' h1 _; cases h1
  | cons e rest ih =>
    rw [List.map_cons, List.nodup_cons] at h
    obtain ⟨hne, hrest⟩ := h
    intro p c c' h1 h2
    rcases List.mem_cons.mp h1 with h1 | h1 <;> rcases List.mem_cons.mp h2 with h2 | h2
    · rw [← h1] at h2
      exact (Prod.mk.injEq _ _ _ _ ▸ h2).2.symm
    · exfalso
      apply hne
      have : p = e.1 := (Prod.mk.injEq _ _ _ _ ▸ h1.symm).1.symm
      rw [← this]
      exact List.mem_map.mpr ⟨(p, c'), h2, rfl⟩
    · exfalso
      apply hne
      have : p = e.1 := (Prod.mk.injEq _ _ _ _ ▸ h2.symm).1.symm
      rw [← this]
      exact List.mem_map.mpr ⟨(p, c), h1, rfl⟩
    · exact ih hrest p c c' h1 h2

theorem scanState_labels_vocab (L : AutomatedLabeler) (content : String) :
    (scanState L content).labels ⊆ label_names := by
  rw [scanState_eq_stateOf]
  have hg := goodI_scanStateI L content
  intro x hx
  rw [stateOf] at hx
  simp only at hx
  rw [hg.labels_eq, List.mem_toFinset, List.mem_map] at hx
  obtain ⟨m, hm, rfl⟩ := hx
  exact hg.cats_mem m hm

theorem reviewAdjust_fst (lits : List String) (rs : List (String → Bool)) (content : String)
    (labels : Finset String) (score : ℚ) :
    (reviewAdjust lits rs content labels score).1 = labels ∨
      (reviewAdjust lits rs content labels score).1 =
        insert "meta:needs-human-review" labels := by
  unfold reviewAdjust
  split
  · exact Or.inr rfl
  · split
    · exact Or.inr rfl
    · exact Or.inl rfl

theorem afterReview_labels_vocab (L : AutomatedLabeler) (text : String) :
    (afterReview L text).1 ⊆ label_names ∪ {"meta:needs-human-review"} := by
  have hs := scanState_labels_vocab L (lowerStr text)
  have h := reviewAdjust_fst L.review_literals L.review_regexes (lowerStr text)
    (scanState L (lowerStr text)).labels (scanState L (lowerStr text)).severity_score
  show (reviewAdjust L.review_literals L.review_regexes (lowerStr text)
    (scanState L (lowerStr text)).labels (scanState L (lowerStr text)).severity_score).1 ⊆ _
  rcases h with h | h <;> rw [h]
  · exact hs.trans Finset.subset_union_left
  · rw [Finset.insert_subset_iff]
    exact ⟨Finset.mem_union_right _ (Finset.mem_singleton_self _),
      hs.trans Finset.subset_union_left⟩

theorem adjusted_labels_vocab (L : AutomatedLabeler)
    (resp : Except String (List (String × ℚ))) (text : String) :
    (adjust (get_perspective_scores resp default_attributes) (afterReview L text)).1 ⊆
      label_names ∪ {"meta:needs-human-review"} := by
  have hv := afterReview_labels_vocab L text
  rcases adjust_fst (get_perspective_scores resp default_attributes) (afterReview L text)
    with h | h <;> rw [h]
  · exact hv
  · rw [Finset.insert_subset_iff]
    exact ⟨Finset.mem_union_right _ (Finset.mem_singleton_self _), hv⟩

theorem sevLabel_mem_sevTokens (s : ℚ) : sevLabel (severity_level s) ∈ sevTokens := by
  rcases severity_level_cases s with h | h | h <;> rw [h] <;> decide

theorem scanState_empty {L : AutomatedLabeler} {content : String}
    (hlit : ∀ e ∈ L.literal_lexicon, occursIn e.1 content = false)
    (hrx : ∀ r ∈ L.regex_patterns, r.search content = false) :
    scanState L content = ⟨∅, ∅, 0⟩ := by
  unfold scanState literalScan
  rw [autoEvents_nil_of_no_occurrence hlit]
  simp only [List.foldl_nil]
  exact regexScan_no_match hrx _

theorem autoEvents_filter (litMap : List (String × String)) (content : String) :
    autoEvents (litMap.filter (fun e => decide (e.2 ∈ label_names))) content =
      (autoEvents litMap content).filter (fun e => decide (e.2 ∈ label_names)) := by
  unfold autoEvents
  rw [List.filter_flatMap]
  congr 1
  funext i
  rw [List.filter_filter, List.filter_filter]
  congr 1
  funext a
  exact Bool.and_comm _ _

theorem foldl_literalStep_filter_allowed (evs : List (String × String)) :
    ∀ st : ModState,
      (evs.filter (fun e => decide (e.2 ∈ label_names))).foldl literalStep st =
        evs.foldl literalStep st := by
  induction evs with
  | nil => intro st; rfl
  | cons e rest ih =>
    intro st
    by_cases h : e.2 ∈ label_names
    · simp only [List.filter_cons, decide_eq_true h, if_pos, List.foldl_cons, ih]
    · have hstep : literalStep st e = st := by
        simp [literalStep, h]
      simp only [List.filter_cons, h, decide_False, List.foldl_cons, hstep, ih]
      rw [← hstep]
      simp [List.foldl_cons, ih, hstep]

theorem regexScan_filter_allowed (rs : List RegexEntry) (content : String) :
    ∀ st : ModState,
      regexScan (rs.filter (fun r => decide (r.category ∈ label_names))) content st =
        regexScan rs content st := by
  induction rs with
  | nil => intro st; rfl
  | cons r rest ih =>
    intro st
    by_cases h : r.category ∈ label_names
    · simp only [List.filter_cons, decide_eq_true h, if_pos]
      simp only [regexScan, List.foldl_cons]
      exact ih _
    · have hstep : regexStep content st r = st := by
        unfold regexStep
        split
        · simp [h]
        · rfl
      simp only [List.filter_cons, h, decide_False]
      simp only [regexScan, List.foldl_cons, hstep]
      exact ih st

/-! Determinacy: a scan result depends only on which patterns occur in the
content, not on how often or where. -/

theorem scanState_congr {L : AutomatedLabeler} {c₁ c₂ : String}
    (hcons : ConsistentPairs (scanPairs L))
    (hlit : ∀ e ∈ L.literal_lexicon, occursIn e.1 c₁ = occursIn e.1 c₂)
    (hrx : ∀ r ∈ L.regex_patterns, r.search c₁ = r.search c₂) :
    scanState L c₁ = scanState L c₂ := by
  have hmem : ∀ x : String × String,
      x ∈ (scanStateI L c₁).mlist ↔ x ∈ (scanStateI L c₂).mlist := by
    rintro ⟨p, c⟩
    rw [mem_scanStateI L c₁ hcons p c, mem_scanStateI L c₂ hcons p c]
    constructor
    · rintro ⟨hln, ⟨hm, ho⟩ | ⟨r, hr, hs, hp, hc⟩⟩
      · exact ⟨hln, Or.inl ⟨hm, (hlit _ hm).symm.trans ho⟩⟩
      · exact ⟨hln, Or.inr ⟨r, hr, (hrx r hr).symm.trans hs, hp, hc⟩⟩
    · rintro ⟨hln, ⟨hm, ho⟩ | ⟨r, hr, hs, hp, hc⟩⟩
      · exact ⟨hln, Or.inl ⟨hm, (hlit _ hm).trans ho⟩⟩
      · exact ⟨hln, Or.inr ⟨r, hr, (hrx r hr).trans hs, hp, hc⟩⟩
  have hG1 := goodI_scanStateI L c₁
  have hG2 := goodI_scanStateI L c₂
  have htf : (scanStateI L c₁).mlist.toFinset = (scanStateI L c₂).mlist.toFinset := by
    ext x
    rw [List.mem_toFinset, List.mem_toFinset]
    exact hmem x
  rw [scanState_eq_stateOf, scanState_eq_stateOf]
  unfold stateOf
  simp only [ModState.mk.injEq]
  refine ⟨?_, ?_, ?_⟩
  · rw [hG1.labels_eq, hG2.labels_eq]
    ext x
    simp only [List.mem_toFinset, List.mem_map]
    constructor <;> rintro ⟨m, hm, rfl⟩
    · exact ⟨m, (hmem m).mp hm, rfl⟩
    · exact ⟨m, (hmem m).mpr hm, rfl⟩
  · rw [hG1.matches_eq, hG2.matches_eq]
    ext x
    simp only [List.mem_toFinset, List.mem_map]
    constructor <;> rintro ⟨m, hm, rfl⟩
    · exact ⟨m, (hmem m).mp hm, rfl⟩
    · exact ⟨m, (hmem m).mpr hm, rfl⟩
  · rw [hG1.score_eq, hG2.score_eq,
      ← List.sum_toFinset _ (hG1.keys_nodup.of_map), ← List.sum_toFinset _ (hG2.keys_nodup.of_map),
      htf]

theorem reviewAdjust_congr {lits : List String} {rs : List (String → Bool)} {c₁ c₂ : String}
    (h1 : firstLiteralHit lits c₁ = firstLiteralHit lits c₂)
    (h2 : firstRegexHit rs c₁ = firstRegexHit rs c₂)
    (labels : Finset String) (score : ℚ) :
    reviewAdjust lits rs c₁ labels score = reviewAdjust lits rs c₂ labels score := by
  unfold reviewAdjust
  rw [h1, h2]

theorem moderate_post_congr {L : AutomatedLabeler} {t₁ t₂ : String}
    (resp : Except String (List (String × ℚ)))
    (hcons : ConsistentPairs (scanPairs L))
    (hlit : ∀ e ∈ L.literal_lexicon, occursIn e.1 (lowerStr t₁) = occursIn e.1 (lowerStr t₂))
    (hrx : ∀ r ∈ L.regex_patterns, r.search (lowerStr t₁) = r.search (lowerStr t₂))
    (hrl : ∀ w ∈ L.review_literals, occursIn w (lowerStr t₁) = occursIn w (lowerStr t₂))
    (hrr : ∀ g ∈ L.review_regexes, g (lowerStr t₁) = g (lowerStr t₂)) :
    moderate_post L resp t₁ = moderate_post L resp t₂ := by
  have hscan := scanState_congr hcons hlit hrx
  have har : afterReview L t₁ = afterReview L t₂ := by
    show reviewAdjust L.review_literals L.review_regexes (lowerStr t₁)
        (scanState L (lowerStr t₁)).labels (scanState L (lowerStr t₁)).severity_score =
      reviewAdjust L.review_literals L.review_regexes (lowerStr t₂)
        (scanState L (lowerStr t₂)).labels (scanState L (lowerStr t₂)).severity_score
    rw [hscan]
    exact reviewAdjust_congr (firstLiteralHit_congr hrl) (firstRegexHit_congr hrr) _ _
  rw [moderate_post_eq, moderate_post_eq, adjustedScore, adjustedScore, har]

/-- C10 witness: the divergence at a concrete row with `is_regex = "FALSE"`:
the lexicon loader stores a literal, the review loader a compiled regex. -/
theorem c10_witness :
    (load_lexicon (fun s => some (fun t => occursIn s t))
        [⟨"self harm", "abc", .str "FALSE"⟩]).literal_map =
      [(lowerStr "abc", lowerStr "self harm")] ∧
      (load_review_keywords (fun s => some (fun t => occursIn s t))
          [⟨"self harm", "abc", .str "FALSE"⟩]).regex = [fun t => occursIn "abc" t] := by
  have h := c10_regex_flag_divergence.2.2.2
    (fun s => some (fun t => occursIn s t)) "self harm" "abc" (fun t => occursIn "abc" t) rfl
  exact ⟨h.1, h.2.2.2⟩

/-- C1 (counterexample): on a concrete labeler and a text matching no
lexicon phrase, no regex and no review trigger, `moderate_post` returns the
empty set — not the claimed singleton `severity-level-1`. -/
theorem c1_counterexample :
    moderate_post ⟨[("hurt myself", "self harm")], [], ["lol"], []⟩
        (.error "e") "hello there" = ∅ ∧
      (∅ : Finset String) ≠ ({"severity-level-1"} : Finset String) := by
  constructor
  · with_unfolding_all decide
  · decide

/-- C1 (amended): for every text in which no literal phrase, no regex and
no review-trigger pattern matches, `moderate_post` returns the empty label
set: the severity label is only emitted when the label set is non-empty, so
nothing — not even `severity-level-1` — is emitted on a fully unmatched
text (the design variant in which severity is conditional on at least one
label). -/
theorem c1_amended_no_match_returns_empty (L : AutomatedLabeler)
    (resp : Except String (List (String × ℚ))) (text : String)
    (hlit : ∀ e ∈ L.literal_lexicon, occursIn e.1 (lowerStr text) = false)
    (hrx : ∀ r ∈ L.regex_patterns, r.search (lowerStr text) = false)
    (hrl : ∀ w ∈ L.review_literals, occursIn w (lowerStr text) = false)
    (hrr : ∀ g ∈ L.review_regexes, g (lowerStr text) = false) :
    moderate_post L resp text = ∅ := by
  have hscan := scanState_empty hlit hrx
  have har : afterReview L text = (∅, 0) := by
    show reviewAdjust L.review_literals L.review_regexes (lowerStr text)
        (scanState L (lowerStr text)).labels
        (scanState L (lowerStr text)).severity_score = (∅, 0)
    rw [hscan]
    unfold reviewAdjust
    rw [firstLiteralHit_false hrl, firstRegexHit_false hrr]
    simp
  rw [moderate_post_eq, har]
  simp

/-- C1 witness: a concrete labeler with a literal, a regex and review
triggers, none of which matches the text. -/
theorem c1_witness :
    moderate_post ⟨[("hurt myself", "self harm")],
        [⟨"bad+", "self harm", fun t => occursIn "bad" t⟩], ["lol"],
        [fun t => occursIn "jk" t]⟩ (.ok [("TOXICITY", 9/10)]) "good morning" = ∅ :=
  c1_amended_no_match_returns_empty _ _ _ (by decide) (by decide) (by decide) (by decide)

/-- C2 (counterexample): a post whose base score is exactly 3 (severity
level 2 from the base score alone) is emitted at severity-level-1 when the
Perspective call fails, because the all-zero fallback scores trip the
low-toxicity down-adjustment; so a failure is not a pure "no adjustment". -/
theorem c2_counterexample :
    baseScore ⟨[("aaa", "self harm"), ("bbb", "trauma discussion")], [], [], []⟩ "aaa bbb" = 3 ∧
      severity_level 3 = 2 ∧
      moderate_post ⟨[("aaa", "self harm"), ("bbb", "trauma discussion")], [], [], []⟩
          (.error "down") "aaa bbb" =
        {"self harm", "trauma discussion", "severity-level-1"} ∧
      "severity-level-2" ∉
        ({"self harm", "trauma discussion", "severity-level-1"} : Finset String) := by
  refine ⟨?_, ?_, ?_, ?_⟩ <;> with_unfolding_all decide

/-- C2 (amended): when the external Perspective call fails, the handler
returns all-zero scores and the failure is never propagated: classification
proceeds exactly as with an empty response. The zero scores still pass
through the adjustment logic — zero toxicity is below the 0.3 threshold, so
the score is decremented by 0.5 — hence the emitted severity level is the
threshold image of (score − 1/2), which is at most (and can be less than)
the level computed from the unadjusted score. -/
theorem c2_amended_failure_zero_scores (L : AutomatedLabeler) (e : String) (text : String) :
    get_perspective_scores (.error e) default_attributes =
        default_attributes.map (fun a => (a, 0)) ∧
      moderate_post L (.error e) text = moderate_post L (.ok []) text ∧
      ((afterReview L text).1 ≠ ∅ →
        moderate_post L (.error e) text =
          insert (sevLabel (severity_level ((afterReview L text).2 - 1/2)))
            (afterReview L text).1) ∧
      severity_level ((afterReview L text).2 - 1/2) ≤
        severity_level ((afterReview L text).2) := by
  refine ⟨rfl, rfl, ?_, ?_⟩
  · intro hne
    rw [moderate_post_eq, if_neg hne, adjustedScore, adjust_error]
  · exact severity_level_mono (by linarith)

/-- C2 witness: the amended behaviour at a concrete labeler and text with a
non-empty label set and a failed Perspective call. -/
theorem c2_witness :
    (afterReview ⟨[("aaa", "self harm"), ("bbb", "trauma discussion")], [], [], []⟩
        "aaa bbb").1 ≠ ∅ ∧
      moderate_post ⟨[("aaa", "self harm"), ("bbb", "trauma discussion")], [], [], []⟩
          (.error "down") "aaa bbb" =
        insert (sevLabel (severity_level
            ((afterReview ⟨[("aaa", "self harm"), ("bbb", "trauma discussion")], [], [], []⟩
              "aaa bbb").2 - 1/2)))
          (afterReview ⟨[("aaa", "self harm"), ("bbb", "trauma discussion")], [], [], []⟩
            "aaa bbb").1 := by
  have hne : (afterReview ⟨[("aaa", "self harm"), ("bbb", "trauma discussion")], [], [], []⟩
      "aaa bbb").1 ≠ ∅ := by
    with_unfolding_all decide
  exact ⟨hne,
    (c2_amended_failure_zero_scores
      ⟨[("aaa", "self harm"), ("bbb", "trauma discussion")], [], [], []⟩
      "down" "aaa bbb").2.2.1 hne⟩

/-- C6: the review-flag detector short-circuits: its literal loop reports
whether any review literal occurs and stops at the first hit, the regex
loop likewise; a literal hit adds the review marker and decrements the
score by exactly 1 and makes the regex list irrelevant; a regex hit is
consulted only when no literal matched, with the same marker and single
down-weight; with no hit at all, labels and score are untouched — so the
down-weight is applied at most once per call. -/
theorem c6_review_short_circuit (lits : List String) (rs rs' : List (String → Bool))
    (content : String) (labels : Finset String) (score : ℚ) (w : String) (ws : List String) :
    (firstLiteralHit lits content = lits.any (fun x => occursIn x content) ∧
      firstRegexHit rs content = rs.any (fun r => r content)) ∧
      (occursIn w content = true → firstLiteralHit (w :: ws) content = true) ∧
      (firstLiteralHit lits content = true →
        reviewAdjust lits rs content labels score =
            (insert "meta:needs-human-review" labels, score - 1) ∧
          reviewAdjust lits rs content labels score =
            reviewAdjust lits rs' content labels score) ∧
      (firstLiteralHit lits content = false → firstRegexHit rs content = true →
        reviewAdjust lits rs content labels score =
          (insert "meta:needs-human-review" labels, score - 1)) ∧
      (firstLiteralHit lits content = false → firstRegexHit rs content = false →
        reviewAdjust lits rs content labels score = (labels, score)) := by
  refine ⟨⟨firstLiteralHit_eq_any _ _, firstRegexHit_eq_any _ _⟩, ?_, ?_, ?_, ?_⟩
  · intro h
    simp [firstLiteralHit, h]
  · intro h
    exact ⟨by simp [reviewAdjust, h], by simp [reviewAdjust, h]⟩
  · intro h1 h2
    simp [reviewAdjust, h1, h2]
  · intro h1 h2
    simp [reviewAdjust, h1, h2]

/-- C6 witness: two review literals and a review regex all match the text,
yet the marker is added once and the score drops by exactly 1; swapping the
regex list does not change the outcome. -/
theorem c6_witness :
    firstLiteralHit ["lol", "jk"] "well lol jk haha" = true ∧
      reviewAdjust ["lol", "jk"] [fun t => occursIn "haha" t] "well lol jk haha" ∅ 0 =
        (insert "meta:needs-human-review" ∅, 0 - 1) ∧
      reviewAdjust ["lol", "jk"] [fun t => occursIn "haha" t] "well lol jk haha" ∅ 0 =
        reviewAdjust ["lol", "jk"] [] "well lol jk haha" ∅ 0 := by
  have h := (c6_review_short_circuit ["lol", "jk"] [fun t => occursIn "haha" t] []
    "well lol jk haha" ∅ 0 "lol" ["jk"]).2.2.1 (by decide)
  exact ⟨by decide, h.1, h.2⟩

/-- C8: every label `moderate_post` returns lies in the allowed category
vocabulary, the review marker, or the three severity tokens; and lexicon
entries whose category is outside the allowed vocabulary never contribute
to the output: the result is unchanged when all such literal and regex
entries are removed from the labeler. -/
theorem c8_vocabulary_and_inert_categories (L : AutomatedLabeler)
    (resp : Except String (List (String × ℚ))) (text : String) :
    moderate_post L resp text ⊆ label_names ∪ {"meta:needs-human-review"} ∪ sevTokens ∧
      moderate_post L resp text =
        moderate_post
          ⟨L.literal_lexicon.filter (fun e => decide (e.2 ∈ label_names)),
            L.regex_patterns.filter (fun r => decide (r.category ∈ label_names)),
            L.review_literals, L.review_regexes⟩ resp text := by
  constructor
  · rw [moderate_post_eq]
    split
    case isTrue h => rw [h]; exact Finset.empty_subset _
    case isFalse h =>
      rw [Finset.insert_subset_iff]
      exact ⟨Finset.mem_union_right _ (sevLabel_mem_sevTokens _),
        (adjusted_labels_vocab L resp text).trans Finset.subset_union_left⟩
  · have hscan : scanState
        ⟨L.literal_lexicon.filter (fun e => decide (e.2 ∈ label_names)),
          L.regex_patterns.filter (fun r => decide (r.category ∈ label_names)),
          L.review_literals, L.review_regexes⟩ (lowerStr text) =
        scanState L (lowerStr text) := by
      show regexScan (L.regex_patterns.filter (fun r => decide (r.category ∈ label_names)))
          (lowerStr text)
          (literalScan (L.literal_lexicon.filter (fun e => decide (e.2 ∈ label_names)))
            (lowerStr text)) =
        regexScan L.regex_patterns (lowerStr text)
          (literalScan L.literal_lexicon (lowerStr text))
      rw [regexScan_filter_allowed]
      congr 1
      unfold literalScan
      rw [autoEvents_filter, foldl_literalStep_filter_allowed]
    have har : afterReview
        ⟨L.literal_lexicon.filter (fun e => decide (e.2 ∈ label_names)),
          L.regex_patterns.filter (fun r => decide (r.category ∈ label_names)),
          L.review_literals, L.review_regexes⟩ text = afterReview L text := by
      show reviewAdjust L.review_literals L.review_regexes (lowerStr text) _ _ =
        reviewAdjust L.review_literals L.review_regexes (lowerStr text) _ _
      rw [hscan]
    rw [moderate_post_eq, moderate_post_eq, adjustedScore, adjustedScore, har]

/-- C9: a non-empty `moderate_post` result contains exactly one severity
token, one of severity-level-1/2/3; any adjusted score below 3 — negative
or fractional included — maps to level 1; and a text matching only a
review trigger (no category pattern) yields exactly the review marker
together with severity-level-1. -/
theorem c9_exactly_one_severity_token (L : AutomatedLabeler)
    (resp : Except String (List (String × ℚ))) (text : String) :
    (moderate_post L resp text ≠ ∅ →
      ∃ n : ℕ, (n = 1 ∨ n = 2 ∨ n = 3) ∧
        moderate_post L resp text ∩ sevTokens = {sevLabel n}) ∧
      (∀ s : ℚ, s < 3 → severity_level s = 1) ∧
      ((∀ e ∈ L.literal_lexicon, occursIn e.1 (lowerStr text) = false) →
        (∀ r ∈ L.regex_patterns, r.search (lowerStr text) = false) →
        firstLiteralHit L.review_literals (lowerStr text) = true →
        moderate_post L resp text = {"meta:needs-human-review", sevLabel 1}) := by
  refine ⟨?_, ?_, ?_⟩
  · intro hne
    rw [moderate_post_eq] at hne ⊢
    by_cases h0 : (afterReview L text).1 = ∅
    · rw [if_pos h0, h0] at hne
      exact absurd rfl hne
    · rw [if_neg h0]
      refine ⟨severity_level (adjustedScore L resp text), severity_level_cases _, ?_⟩
      rw [Finset.insert_inter_of_mem (sevLabel_mem_sevTokens _)]
      have hdisj : (adjust (get_perspective_scores resp default_attributes)
          (afterReview L text)).1 ∩ sevTokens = ∅ := by
        rw [Finset.eq_empty_iff_forall_not_mem]
        intro x hx
        rw [Finset.mem_inter] at hx
        have hv := adjusted_labels_vocab L resp text hx.1
        have hm : x ∈ (label_names ∪ {"meta:needs-human-review"}) ∩ sevTokens :=
          Finset.mem_inter.mpr ⟨hv, hx.2⟩
        rw [show (label_names ∪ {"meta:needs-human-review"}) ∩ sevTokens = ∅ from by decide]
          at hm
        exact absurd hm (Finset.not_mem_empty x)
      rw [hdisj, insert_emptyc_eq]
  · intro s hs
    exact (severity_level_eq_one_iff s).mpr hs
  · intro hlit hrx hhit
    have hscan := scanState_empty hlit hrx
    have har : afterReview L text = ({"meta:needs-human-review"}, -1) := by
      show reviewAdjust L.review_literals L.review_regexes (lowerStr text)
          (scanState L (lowerStr text)).labels
          (scanState L (lowerStr text)).severity_score = _
      rw [hscan]
      unfold reviewAdjust
      rw [hhit]
      simp
    have hne : (afterReview L text).1 ≠ ∅ := by
      rw [har]
      simp
    rw [moderate_post_eq, if_neg hne]
    have hsc : adjustedScore L resp text < 3 := by
      have hle := adjust_snd_le (get_perspective_scores resp default_attributes)
        (afterReview L text)
      rw [har] at hle
      rw [adjustedScore]
      have : (({"meta:needs-human-review"} : Finset String), (-1 : ℚ)).2 + 1 = 0 := by norm_num
      have hle' := hle.trans_eq this
      rw [har]
      linarith
    rw [(severity_level_eq_one_iff _).mpr hsc]
    have hfst := adjust_fst (get_perspective_scores resp default_attributes) (afterReview L text)
    have hfst' : (adjust (get_perspective_scores resp default_attributes)
        (afterReview L text)).1 = {"meta:needs-human-review"} := by
      rcases hfst with h | h <;> rw [h, har]
      exact Finset.insert_eq_self.mpr (Finset.mem_singleton_self _)
    rw [hfst']
    exact Finset.pair_comm (sevLabel 1) "meta:needs-human-review" ▸ rfl

/-- C9 witness: a text matching only a review literal yields exactly the
marker and severity-level-1, which is also the unique severity token of the
non-empty result. -/
theorem c9_witness :
    moderate_post ⟨[("hurt myself", "self harm")], [], ["lol"], []⟩ (.ok [("TOXICITY", 1/2)])
        "just lol" = {"meta:needs-human-review", sevLabel 1} :=
  (c9_exactly_one_severity_token ⟨[("hurt myself", "self harm")], [], ["lol"], []⟩
    (.ok [("TOXICITY", 1/2)]) "just lol").2.2 (by decide) (by decide) (by decide)

/-- C3: severity scoring equals the reference definition: the base score is
the sum of weight(category) over the deduplicated match set, where weight
is 2 exactly on the critical categories (sexual violence, self harm) and 1
otherwise; and the emitted level is the threshold image of the (possibly
adjusted) score with inclusive boundaries — at least 6 gives level 3, at
least 3 gives level 2, anything else level 1, so a score of exactly 3
(resp. 6) maps to level 2 (resp. 3). -/
theorem c3_severity_scoring (L : AutomatedLabeler)
    (resp : Except String (List (String × ℚ))) (text : String) :
    baseScore L text = ((matchSet L text).map (fun m => weight m.2)).sum ∧
      ((matchSet L text).map Prod.fst).Nodup ∧
      (∀ c ∈ CRITICAL_LABELS, weight c = 2) ∧
      (∀ c ∉ CRITICAL_LABELS, weight c = 1) ∧
      CRITICAL_LABELS = {"sexual violence", "self harm"} ∧
      (∀ s : ℚ, (severity_level s = 3 ↔ 6 ≤ s) ∧
        (severity_level s = 2 ↔ 3 ≤ s ∧ s < 6) ∧ (severity_level s = 1 ↔ s < 3)) ∧
      severity_level 3 = 2 ∧ severity_level 6 = 3 ∧
      ((afterReview L text).1 ≠ ∅ →
        sevLabel (severity_level (adjustedScore L resp text)) ∈ moderate_post L resp text) := by
  refine ⟨baseScore_eq_sum L text, matchSet_keys_nodup L text, ?_, ?_, rfl, ?_, ?_, ?_, ?_⟩
  · intro c hc
    simp [weight, hc]
  · intro c hc
    simp [weight, hc]
  · intro s
    exact ⟨severity_level_eq_three_iff s, severity_level_eq_two_iff s,
      severity_level_eq_one_iff s⟩
  · exact (severity_level_eq_two_iff 3).mpr ⟨le_refl 3, by norm_num⟩
  · exact (severity_level_eq_three_iff 6).mpr (le_refl 6)
  · intro hne
    rw [moderate_post_eq, if_neg hne]
    exact Finset.mem_insert_self _ _

/-- C3 witness: the scoring identities at a concrete labeler with one
critical and one normal match, with the severity token of the adjusted
score present in the emitted result. -/
theorem c3_witness :
    baseScore ⟨[("aaa", "self harm"), ("bbb", "trauma discussion")], [], [], []⟩ "aaa bbb" =
        ((matchSet ⟨[("aaa", "self harm"), ("bbb", "trauma discussion")], [], [], []⟩
          "aaa bbb").map (fun m => weight m.2)).sum ∧
      sevLabel (severity_level (adjustedScore
          ⟨[("aaa", "self harm"), ("bbb", "trauma discussion")], [], [], []⟩
          (.error "down") "aaa bbb")) ∈
        moderate_post ⟨[("aaa", "self harm"), ("bbb", "trauma discussion")], [], [], []⟩
          (.error "down") "aaa bbb" :=
  ⟨(c3_severity_scoring ⟨[("aaa", "self harm"), ("bbb", "trauma discussion")], [], [], []⟩
      (.error "down") "aaa bbb").1,
    (c3_severity_scoring ⟨[("aaa", "self harm"), ("bbb", "trauma discussion")], [], [], []⟩
      (.error "down") "aaa bbb").2.2.2.2.2.2.2.2 (by with_unfolding_all decide)⟩

/-- C4: matches are deduplicated by pattern id within one call: the match
set never records the same literal phrase or regex source twice (the dedup
set is shared between the literal and the regex loop, so a pattern
reachable both ways still counts once); the whole result depends only on
which patterns occur in the text — not on how many times they occur — and
two distinct patterns mapped to the same category each contribute their
weight to the base score. -/
theorem c4_dedup_by_pattern (L : AutomatedLabeler)
    (resp : Except String (List (String × ℚ))) (t₁ t₂ : String)
    (hcons : ConsistentPairs (scanPairs L))
    (hlit : ∀ e ∈ L.literal_lexicon, occursIn e.1 (lowerStr t₁) = occursIn e.1 (lowerStr t₂))
    (hrx : ∀ r ∈ L.regex_patterns, r.search (lowerStr t₁) = r.search (lowerStr t₂))
    (hrl : ∀ w ∈ L.review_literals, occursIn w (lowerStr t₁) = occursIn w (lowerStr t₂))
    (hrr : ∀ g ∈ L.review_regexes, g (lowerStr t₁) = g (lowerStr t₂)) :
    ((matchSet L t₁).map Prod.fst).Nodup ∧
      moderate_post L resp t₁ = moderate_post L resp t₂ ∧
      ∀ p₁ p₂ c text, p₁ ≠ p₂ → c ∈ label_names →
        occursIn p₁ (lowerStr text) = true → occursIn p₂ (lowerStr text) = true →
        baseScore ⟨[(p₁, c), (p₂, c)], [], [], []⟩ text = weight c + weight c := by
  refine ⟨matchSet_keys_nodup L t₁,
    moderate_post_congr resp hcons hlit hrx hrl hrr, ?_⟩
  intro p₁ p₂ c text hne hln h1 h2
  have hc3 : ConsistentPairs
      (scanPairs ⟨[(p₁, c), (p₂, c)], [], [], []⟩) := by
    intro q d d' hd hd'
    simp only [scanPairs, List.map_nil, List.append_nil, List.mem_cons,
      List.not_mem_nil, or_false, Prod.mk.injEq] at hd hd'
    rcases hd with ⟨_, rfl⟩ | ⟨_, rfl⟩ <;> rcases hd' with ⟨_, h⟩ | ⟨_, h⟩ <;> rw [h]
  have hmm : ∀ x : String × String,
      x ∈ matchSet ⟨[(p₁, c), (p₂, c)], [], [], []⟩ text ↔
        x = (p₁, c) ∨ x = (p₂, c) := by
    rintro ⟨q, d⟩
    rw [mem_matchSet _ text hc3 q d]
    constructor
    · rintro ⟨hdln, ⟨hm, ho⟩ | ⟨r, hr, _⟩⟩
      · simpa using hm
      · simp at hr
    · rintro (h | h)
      · obtain ⟨rfl, rfl⟩ : q = p₁ ∧ d = c := by simpa [Prod.ext_iff] using h
        exact ⟨hln, Or.inl ⟨by simp, h1⟩⟩
      · obtain ⟨rfl, rfl⟩ : q = p₂ ∧ d = c := by simpa [Prod.ext_iff] using h
        exact ⟨hln, Or.inl ⟨by simp, h2⟩⟩
  rw [baseScore_eq_sum]
  have hnodup : (matchSet ⟨[(p₁, c), (p₂, c)], [], [], []⟩ text).Nodup :=
    (matchSet_keys_nodup _ text).of_map
  have htf : (matchSet ⟨[(p₁, c), (p₂, c)], [], [], []⟩ text).toFinset =
      {(p₁, c), (p₂, c)} := by
    ext x
    rw [List.mem_toFinset, hmm x]
    simp
  rw [← List.sum_toFinset _ hnodup, htf,
    Finset.sum_pair (show ((p₁ : String), c) ≠ (p₂, c) by simp [Prod.ext_iff, hne])]

/-- C4 witness: a phrase occurring five times scores the same as occurring
once, and two distinct phrases of the same (critical) category each add
their weight. -/
theorem c4_witness :
    moderate_post ⟨[("ab", "self harm")], [], [], []⟩ (.error "e") "ab ab ab ab ab" =
        moderate_post ⟨[("ab", "self harm")], [], [], []⟩ (.error "e") "ab" ∧
      baseScore ⟨[("aa", "self harm"), ("bb", "self harm")], [], [], []⟩ "aa bb" =
        weight "self harm" + weight "self harm" := by
  have h := c4_dedup_by_pattern ⟨[("ab", "self harm")], [], [], []⟩ (.error "e")
    "ab ab ab ab ab" "ab"
    (nodup_keys_consistent (by decide)) (by decide) (by decide) (by decide) (by decide)
  exact ⟨h.2.1, h.2.2 "aa" "bb" "self harm" "aa bb" (by decide) (by decide)
    (by decide) (by decide)⟩

/-- C5: for every text containing (after lower-case normalization) a
literal phrase whose loaded lexicon entry carries an allowed category,
`moderate_post` includes that category in its output; moreover every stored
literal entry is the lower-casing of some source row (phrases are
lower-cased at load time), and the text is lower-cased before scanning. -/
theorem c5_literal_phrase_included (compile : String → Option (String → Bool))
    (lexRows reviewRows : List Row) (resp : Except String (List (String × ℚ)))
    (text p c : String)
    (hmem : (p, c) ∈ (AutomatedLabeler.init compile lexRows reviewRows).literal_lexicon)
    (hln : c ∈ label_names)
    (hocc : occursIn p (lowerStr text) = true) :
    c ∈ moderate_post (AutomatedLabeler.init compile lexRows reviewRows) resp text ∧
      ∃ row ∈ lexRows, p = lowerStr row.phrase_or_pattern ∧ c = lowerStr row.category := by
  have hLlit : (AutomatedLabeler.init compile lexRows reviewRows).literal_lexicon =
      (load_lexicon compile lexRows).literal_map := rfl
  constructor
  · set L := AutomatedLabeler.init compile lexRows reviewRows with hL
    set content := lowerStr text with hcontent
    have hkeys : ((L.literal_lexicon).map Prod.fst).Nodup := by
      rw [hL, hLlit]
      exact load_lexicon_keys_nodup compile lexRows
    have hconsL : ConsistentPairs L.literal_lexicon := nodup_keys_consistent hkeys
    have hconsE : ∀ q d d',
        (q, d) ∈ ([] : List (String × String)) ++ autoEvents L.literal_lexicon content →
        (q, d') ∈ ([] : List (String × String)) ++ autoEvents L.literal_lexicon content →
        d = d' := by
      intro q d d' hx hy
      simp only [List.nil_append] at hx hy
      exact hconsL q d d' ((mem_autoEvents _ _ _).mp hx).1 ((mem_autoEvents _ _ _).mp hy).1
    have hmlist : (p, c) ∈
        ((autoEvents L.literal_lexicon content).foldl literalStepI ⟨∅, ∅, 0, []⟩).mlist :=
      (mem_mlist_foldl (autoEvents L.literal_lexicon content) ⟨∅, ∅, 0, []⟩ hconsE p c).mpr
        (Or.inr ⟨hln, (mem_autoEvents _ _ (p, c)).mpr ⟨hmem, hocc⟩, by simp⟩)
    have hgI := goodI_foldl (autoEvents L.literal_lexicon content) ⟨∅, ∅, 0, []⟩
      ⟨by simp, by simp, by simp, by simp, by simp⟩
    have hclab : c ∈
        ((autoEvents L.literal_lexicon content).foldl literalStepI ⟨∅, ∅, 0, []⟩).labels := by
      rw [hgI.labels_eq, List.mem_toFinset, List.mem_map]
      exact ⟨(p, c), hmlist, rfl⟩
    have hlitScan : literalScan L.literal_lexicon content =
        stateOf ((autoEvents L.literal_lexicon content).foldl literalStepI ⟨∅, ∅, 0, []⟩) := by
      unfold literalScan
      rw [stateOf_foldl]
      rfl
    have hclab' : c ∈ (literalScan L.literal_lexicon content).labels := by
      rw [hlitScan]
      exact hclab
    have hscanmem : c ∈ (scanState L content).labels := by
      unfold scanState
      rw [regexScan_eq_foldl]
      exact foldl_literalStep_labels_subset _ _ hclab'
    exact afterReview_labels_subset L resp text
      (scan_labels_subset_afterReview L text hscanmem)
  · rw [hLlit] at hmem
    obtain ⟨row, hr, he⟩ := load_lexicon_mem compile lexRows (p, c) hmem
    obtain ⟨h1, h2⟩ : p = lowerStr row.phrase_or_pattern ∧ c = lowerStr row.category := by
      simpa [Prod.ext_iff] using he
    exact ⟨row, hr, h1, h2⟩

/-- C5 witness: a mixed-case lexicon row and a mixed-case post text — the
lower-cased phrase of the loaded entry occurs in the lower-cased text and
the category appears in the output. -/
theorem c5_witness :
    "self harm" ∈ moderate_post
        (AutomatedLabeler.init (fun s => some (fun t => occursIn s t))
          [⟨"Self Harm", "Hurt Myself", .str "FALSE"⟩] [])
        (.error "e") "I want to HURT myself" :=
  (c5_literal_phrase_included (fun s => some (fun t => occursIn s t))
    [⟨"Self Harm", "Hurt Myself", .str "FALSE"⟩] [] (.error "e")
    "I want to HURT myself" "hurt myself" "self harm"
    (by decide) (by decide) (by decide)).1

end Labeler
